import Mathlib

set_option maxHeartbeats 1000000

/-! Shallow embedding of `synchronous_script.py` and `asynchronous_script.py`
from the repository `asynchronous-web-scraping-python`.

Both scripts fetch product pages, extract a title and a key/value table and
persist the result as a flat JSON object. The HTML fragments the scripts
inspect through BeautifulSoup are modelled structurally: a `Doc` carries the
result of `soup.select_one` on the product-main selector and the result of
`soup.select` on the table-row selector; a `Cell` carries the list of strings
of a tag's subtree, whose concatenation is what the `.text` property of
BeautifulSoup returns (no stripping is applied by `.text`). -/

/-- One HTML tag as seen through the `.text` property: the strings of its
subtree. `text` is their concatenation, exactly what BeautifulSoup's
`Tag.text` yields — in particular surrounding whitespace is preserved. -/
structure Cell where
  strings : List String
deriving DecidableEq

def Cell.text (c : Cell) : String := String.join c.strings

/-- One `tr` element of the selected table. `th` models `row.th` (the first
`th` descendant, `None` when absent) and `td` models `row.td`. -/
structure Row where
  th : Option Cell
  td : Option Cell
deriving DecidableEq

/-- The element returned by `soup.select_one` on the product-main class;
`h1` models its `.h1` attribute access (`None` when no `h1` child exists). -/
structure ProductMain where
  h1 : Option Cell
deriving DecidableEq

/-- A parsed document body. `productMain` is the result of `select_one` on
the product-main selector (`none` when the region is missing) and
`tableRows` is the list returned by `select` on the striped-table row
selector (the empty list when the table region is missing). -/
structure Doc where
  productMain : Option ProductMain
  tableRows : List Row
deriving DecidableEq

/-- One persisted output: the file path and the exact byte content written. -/
structure Artifact where
  path : String
  content : String
deriving DecidableEq

/-- The extracted value of one chain: the `book_name` title together with the
`product_info` mapping, as an ordered association list with unique keys
(the order and uniqueness of a Python dict). -/
structure AttributeRecord where
  title : String
  info : List (String × String)
deriving DecidableEq

/-- Outcome of `requests.get` / `session.get` for one target: the parsed
document on success, or a network-level failure that raises. -/
inductive FetchResult where
  | ok (d : Doc)
  | err
deriving DecidableEq

/-! Python dict semantics. The comprehension
`{row.th.text: row.td.text for row in rows}` inserts pairs left to right;
inserting an existing key keeps the key's position and overwrites its value,
a fresh key is appended at the end. -/

/-- The keys of an ordered association list, in order. -/
def keysOf (m : List (String × String)) : List String := m.map Prod.fst

/-- Insertion into a Python dict represented as an ordered association list:
an existing key keeps its position and gets the new value, a new key is
appended. -/
def dictInsert (m : List (String × String)) (k v : String) : List (String × String) :=
  if k ∈ keysOf m then
    m.map (fun p => if p.1 = k then (k, v) else p)
  else m ++ [(k, v)]

/-- First-match lookup in an ordered association list. -/
def lookupKV : List (String × String) → String → Option String
  | [], _ => none
  | p :: ps, k => if p.1 = k then some p.2 else lookupKV ps k

/-- The dict comprehension of `scrape`, processed left to right. A row whose
`th` or `td` is missing raises an AttributeError (`none`); otherwise the pair
of `.text` values is inserted into the accumulating dict. -/
def buildInfo : List Row → List (String × String) → Option (List (String × String))
  | [], m => some m
  | r :: rs, m =>
    match r.th, r.td with
    | some hc, some dc => buildInfo rs (dictInsert m hc.text dc.text)
    | _, _ => none

/-- Left-biased choice on optional values. -/
def orO (a b : Option String) : Option String :=
  match a with
  | some v => some v
  | none => b

/-- The value of the last pair with the given key, if any. -/
def lastAssoc : List (String × String) → String → Option String
  | [], _ => none
  | p :: ps, k => orO (lastAssoc ps k) (if p.1 = k then some p.2 else none)

/-- Keys in order of first occurrence, appended after an accumulator. -/
def firstOccAux : List String → List String → List String
  | acc, [] => acc
  | acc, k :: ks => if k ∈ acc then firstOccAux acc ks else firstOccAux (acc ++ [k]) ks

/-- The distinct keys of a list, in order of first occurrence. -/
def firstOcc (l : List String) : List String := firstOccAux [] l

/-- The `(th.text, td.text)` pairs of a row list, `none` when some row lacks
a header or data cell. -/
def rowPairs : List Row → Option (List (String × String))
  | [] => some []
  | r :: rs =>
    match r.th, r.td with
    | some hc, some dc => (rowPairs rs).map (fun ps => (hc.text, dc.text) :: ps)
    | _, _ => none

/-- Folding a pair list into a dict, left to right. -/
def foldInsert (m : List (String × String)) (ps : List (String × String)) :
    List (String × String) :=
  ps.foldl (fun acc p => dictInsert acc p.1 p.2) m

/-! JSON serialization as performed by `json.dump` with default options:
`ensure_ascii` escaping per character, separators a comma-space and a
colon-space, no trailing whitespace. -/

/-- Lowercase hexadecimal digit. -/
def hexDigit (n : Nat) : Char := if n < 10 then Char.ofNat (48 + n) else Char.ofNat (87 + n)

/-- Four lowercase hexadecimal digits, most significant first. -/
def hex4 (n : Nat) : List Char :=
  [hexDigit (n / 4096 % 16), hexDigit (n / 256 % 16), hexDigit (n / 16 % 16), hexDigit (n % 16)]

/-- Escaping of one character in a JSON string, following `json.dump` with
`ensure_ascii=True`: quote and backslash get two-character escapes, the five
shorthand control escapes are used, other characters outside the printable
ASCII range 0x20..0x7e become `\uXXXX` (a surrogate pair beyond 0xFFFF). -/
def escapeChar (c : Char) : List Char :=
  if c = '"' then [ '\\', '"' ]
  else if c = '\\' then [ '\\', '\\' ]
  else if c = '\n' then [ '\\', 'n' ]
  else if c = '\t' then [ '\\', 't' ]
  else if c = '\r' then [ '\\', 'r' ]
  else if c = '\x08' then [ '\\', 'b' ]
  else if c = '\x0c' then [ '\\', 'f' ]
  else if c.toNat < 32 then '\\' :: 'u' :: hex4 c.toNat
  else if c.toNat < 127 then [c]
  else if c.toNat < 65536 then '\\' :: 'u' :: hex4 c.toNat
  else '\\' :: 'u' :: hex4 (55296 + (c.toNat - 65536) / 1024)
       ++ '\\' :: 'u' :: hex4 (56320 + (c.toNat - 65536) % 1024)

/-- Escaping of a whole string body, character by character. -/
def escapeList : List Char → List Char
  | [] => []
  | c :: cs => escapeChar c ++ escapeList cs

/-- A JSON string literal: quote, escaped body, quote. -/
def encodeStr (s : String) : List Char := '"' :: (escapeList s.data ++ [ '"' ])

/-- One `"key": "value"` member (colon-space separator of `json.dump`). -/
def encodeEntry (k v : String) : List Char := encodeStr k ++ ':' :: ' ' :: encodeStr v

/-- The members of a non-empty object, separated by comma-space. -/
def encodeMembers : List (String × String) → List Char
  | [] => []
  | [(k, v)] => encodeEntry k v
  | (k, v) :: rest => encodeEntry k v ++ ',' :: ' ' :: encodeMembers rest

/-- The serialized text `json.dump` writes for a flat string-to-string
mapping: either the two-character empty object or braces around the
comma-space separated members. -/
def dumps (m : List (String × String)) : String :=
  match m with
  | [] => String.mk [ '{', '}' ]
  | _ => String.mk ('{' :: (encodeMembers m ++ [ '}' ]))

/-- The filename transformation `book_name.replace(' ', '_')`: every space
character becomes an underscore. -/
def underscore (s : String) : String :=
  String.mk (s.data.map (fun c => if c = ' ' then '_' else c))

def dataDir : String := "data/"

def jsonExt : String := ".json"

/-! Reading the written file back: a JSON parser for the flat
string-to-string objects the scripts write, modelling what `json.load`
does on such documents (strict mode: raw control characters inside string
literals are rejected; `\uXXXX` escapes and surrogate pairs are decoded;
objects are built by repeated dict insertion, so a duplicated key keeps its
first position and takes its last value). -/

/-- Decoded value of one hexadecimal digit, either case. -/
def hexVal (c : Char) : Option Nat :=
  if 48 ≤ c.toNat ∧ c.toNat ≤ 57 then some (c.toNat - 48)
  else if 97 ≤ c.toNat ∧ c.toNat ≤ 102 then some (c.toNat - 87)
  else if 65 ≤ c.toNat ∧ c.toNat ≤ 70 then some (c.toNat - 55)
  else none

/-- Decoded value of a four-digit hexadecimal escape. -/
def hexVal4 (a b c d : Char) : Option Nat :=
  match hexVal a, hexVal b, hexVal c, hexVal d with
  | some x, some y, some z, some w => some (x * 4096 + y * 256 + z * 16 + w)
  | _, _, _, _ => none

/-- Decoding of the two-character escapes of JSON strings. -/
def unescapeShort (c : Char) : Option Char :=
  if c = '"' then some '"'
  else if c = '\\' then some '\\'
  else if c = '/' then some '/'
  else if c = 'n' then some '\n'
  else if c = 't' then some '\t'
  else if c = 'r' then some '\r'
  else if c = 'b' then some '\x08'
  else if c = 'f' then some '\x0c'
  else none

/-- Fuel-bounded parser for the body of a JSON string literal after the
opening quote: decodes escapes — including surrogate pairs — up to the
closing quote, returning the decoded characters and the remaining input. -/
def parseBodyF : Nat → List Char → Option (List Char × List Char)
  | 0, _ => none
  | _ + 1, [] => none
  | fuel + 1, c :: rest =>
    if c = '"' then some ([], rest)
    else if c = '\\' then
      match rest with
      | [] => none
      | e :: rest2 =>
        if e = 'u' then
          match rest2 with
          | a :: b :: c2 :: d :: rest3 =>
            match hexVal4 a b c2 d with
            | none => none
            | some hi =>
              if 55296 ≤ hi ∧ hi < 56320 then
                match rest3 with
                | bs :: u2 :: a2 :: b2 :: c3 :: d2 :: rest4 =>
                  if bs = '\\' ∧ u2 = 'u' then
                    match hexVal4 a2 b2 c3 d2 with
                    | none => none
                    | some lo =>
                      if 56320 ≤ lo ∧ lo < 57344 then
                        match parseBodyF fuel rest4 with
                        | none => none
                        | some p =>
                          some (Char.ofNat (65536 + (hi - 55296) * 1024 + (lo - 56320)) :: p.1, p.2)
                      else none
                  else none
                | _ => none
              else if 56320 ≤ hi ∧ hi < 57344 then none
              else
                match parseBodyF fuel rest3 with
                | none => none
                | some p => some (Char.ofNat hi :: p.1, p.2)
          | _ => none
        else
          match unescapeShort e with
          | none => none
          | some dc =>
            match parseBodyF fuel rest2 with
            | none => none
            | some p => some (dc :: p.1, p.2)
    else if c.toNat < 32 then none
    else
      match parseBodyF fuel rest with
      | none => none
      | some p => some (c :: p.1, p.2)

/-- Parser for a JSON string literal: opening quote, body, closing quote. -/
def parseJString (l : List Char) : Option (String × List Char) :=
  match l with
  | [] => none
  | c :: rest =>
    if c = '"' then (parseBodyF (rest.length + 1) rest).map (fun p => (String.mk p.1, p.2))
    else none

/-- Insignificant JSON whitespace. -/
def isJsonWs (c : Char) : Bool :=
  if c = ' ' then true
  else if c = '\t' then true
  else if c = '\n' then true
  else if c = '\r' then true
  else false

/-- Dropping of insignificant leading whitespace. -/
def skipWs : List Char → List Char
  | [] => []
  | c :: rest => if isJsonWs c then skipWs rest else c :: rest

/-- Fuel-bounded parser for the members of a JSON object after the opening
brace, building the mapping by repeated dict insertion as `json.load` does:
a string key, a colon, a string value, then either a comma and further
members or the closing brace. -/
def parseMembers : Nat → List Char → List (String × String) →
    Option (List (String × String) × List Char)
  | 0, _, _ => none
  | fuel + 1, l, acc =>
    match parseJString (skipWs l) with
    | none => none
    | some (k, r1) =>
      match skipWs r1 with
      | [] => none
      | c :: r2 =>
        if c = ':' then
          match parseJString (skipWs r2) with
          | none => none
          | some (v, r3) =>
            match skipWs r3 with
            | [] => none
            | c2 :: r4 =>
              if c2 = ',' then parseMembers fuel r4 (dictInsert acc k v)
              else if c2 = '}' then some (dictInsert acc k v, r4)
              else none
        else none

/-- Parsing of a whole document that holds one flat string-to-string JSON
object, as `json.load` reads the files the scripts write: optional
whitespace, an object, optional trailing whitespace, end of input. -/
def loads (s : String) : Option (List (String × String)) :=
  match skipWs s.data with
  | [] => none
  | c :: r =>
    if c = '{' then
      match skipWs r with
      | [] => none
      | c2 :: r2 =>
        if c2 = '}' then
          match skipWs r2 with
          | [] => some []
          | _ => none
        else
          match parseMembers (r.length + 1) r [] with
          | none => none
          | some p =>
            match skipWs p.2 with
            | [] => some p.1
            | _ => none
    else none

namespace SyncScript

/-- Model of `save_product` from `synchronous_script.py`: the file path is
`data/` plus the title with spaces replaced by underscores plus `.json`, and
the content is the `json.dump` serialization of the mapping. -/
def save_product (book_name : String) (product_info : List (String × String)) : Artifact :=
  Artifact.mk (dataDir ++ underscore book_name ++ jsonExt) (dumps product_info)

/-- The extraction half of `scrape`: `soup.select_one('.product_main').h1.text`
raises when the region or the `h1` is absent; the rows are folded into a dict.
Returns the extracted `AttributeRecord` or `none` for a fatal AttributeError. -/
def extractRecord (d : Doc) : Option AttributeRecord :=
  match d.productMain with
  | none => none
  | some pm =>
    match pm.h1 with
    | none => none
    | some c => (buildInfo d.tableRows []).map (fun info => AttributeRecord.mk c.text info)

/-- Model of `scrape` from `synchronous_script.py`: fetch, extract and
persist. `none` means the chain raised (network failure or AttributeError);
`some a` is the artifact written by `save_product`. -/
def scrape (f : FetchResult) : Option Artifact :=
  match f with
  | FetchResult.err => none
  | FetchResult.ok d => (extractRecord d).map (fun rec => save_product rec.title rec.info)

end SyncScript

namespace AsyncScript

/-- Model of `save_product` from `asynchronous_script.py` (identical body to
the synchronous one; the `async` keyword changes no data behaviour). -/
def save_product (book_name : String) (product_info : List (String × String)) : Artifact :=
  Artifact.mk (dataDir ++ underscore book_name ++ jsonExt) (dumps product_info)

/-- The extraction half of the asynchronous `scrape` (lines 19-22 of
`asynchronous_script.py`), identical to the synchronous extraction. -/
def extractRecord (d : Doc) : Option AttributeRecord :=
  match d.productMain with
  | none => none
  | some pm =>
    match pm.h1 with
    | none => none
    | some c => (buildInfo d.tableRows []).map (fun info => AttributeRecord.mk c.text info)

/-- Model of the asynchronous `scrape`: one chain, fetch through the aiohttp
session, extract, persist. -/
def scrape (f : FetchResult) : Option Artifact :=
  match f with
  | FetchResult.err => none
  | FetchResult.ok d => (extractRecord d).map (fun rec => save_product rec.title rec.info)

end AsyncScript

/-! Orchestrators. A run is driven over the list of per-target fetch
outcomes (the world applied to the URLs read from `urls.csv`, in file
order). `RunResult` records what is observable when the script ends:
which targets had their fetch issued, the artifacts written (tagged with
the target's index, in write order), which chains ran to completion
(successfully or by raising), whether the final timing line was printed,
and whether the run terminated with an unhandled error. -/

structure RunResult where
  fetched : List Nat
  written : List (Nat × Artifact)
  completed : List Nat
  timingPrinted : Bool
  error : Bool
deriving DecidableEq

namespace SyncScript

/-- The loop of the synchronous `main`: each CSV row's target is fetched and
its whole chain runs before the next row is read. An exception anywhere in a
chain propagates out of `main` — the loop stops, later targets are never
fetched, and the timing line is not printed. -/
def seqRun : Nat → List FetchResult → List Nat → List (Nat × Artifact) → RunResult
  | _, [], fets, acc => RunResult.mk fets.reverse acc.reverse fets.reverse true false
  | i, f :: rest, fets, acc =>
    match scrape f with
    | some a => seqRun (i + 1) rest (i :: fets) ((i, a) :: acc)
    | none => RunResult.mk (i :: fets).reverse acc.reverse (i :: fets).reverse false true

/-- Model of `main` from `synchronous_script.py`. -/
def main (inputs : List FetchResult) : RunResult := seqRun 0 inputs [] []

end SyncScript

namespace AsyncScript

/-- The awaited `asyncio.gather` of the asynchronous `main`, observed along
a completion order of the chains. Every chain was already started (all
fetches issued). Chains complete one after another in the given order; a
successful chain has persisted its artifact by the time it completes. With
`return_exceptions` left at its default, the first chain that completes by
raising makes the gather future raise: `main` resumes with the error, the
timing line is not printed, and chains later in the completion order are
abandoned before completing. -/
def concGo (inputs : List FetchResult) :
    List (Fin inputs.length) → List Nat → List (Nat × Artifact) → RunResult
  | [], comp, acc => RunResult.mk (List.range inputs.length) acc.reverse comp.reverse true false
  | i :: rest, comp, acc =>
    match scrape (inputs.get i) with
    | some a => concGo inputs rest (i.val :: comp) ((i.val, a) :: acc)
    | none => RunResult.mk (List.range inputs.length) acc.reverse (i.val :: comp).reverse false true

/-- Model of `main` from `asynchronous_script.py`, parameterized by the
order in which the concurrently running chains complete (network timing);
a run of the script corresponds to some completion order that enumerates
every started chain at most once, i.e. a permutation of all indices. -/
def main (inputs : List FetchResult) (order : List (Fin inputs.length)) : RunResult :=
  concGo inputs order [] []

end AsyncScript

/-! Closed forms for the observable parts of the two runs, used to state
what the orchestrators do. -/

/-- The artifacts the sequential loop persists: one per chain, in list
order, up to (excluding) the first failing chain; indices start at `i`. -/
def successArtifacts (i : Nat) : List FetchResult → List (Nat × Artifact)
  | [] => []
  | f :: rest =>
    match SyncScript.scrape f with
    | some a => (i, a) :: successArtifacts (i + 1) rest
    | none => []

/-- The indices whose fetch the sequential loop issues: every chain up to
and including the first failing one, in list order. -/
def attempted (i : Nat) : List FetchResult → List Nat
  | [] => []
  | f :: rest =>
    match SyncScript.scrape f with
    | some _ => i :: attempted (i + 1) rest
    | none => [i]

/-- Whether some chain of the list fails. -/
def hasFailure (l : List FetchResult) : Bool :=
  l.any (fun f => (SyncScript.scrape f).isNone)

/-- The artifacts the concurrent run persists along a completion order:
every successful chain completing before the first failing completion. -/
def concWritten (inputs : List FetchResult) :
    List (Fin inputs.length) → List (Nat × Artifact)
  | [] => []
  | i :: rest =>
    match AsyncScript.scrape (inputs.get i) with
    | some a => (i.val, a) :: concWritten inputs rest
    | none => []

/-- The chains that have completed — successfully, or by raising for the
last one — when the aggregate wait of the concurrent run resumes. -/
def concCompleted (inputs : List FetchResult) :
    List (Fin inputs.length) → List Nat
  | [] => []
  | i :: rest =>
    match AsyncScript.scrape (inputs.get i) with
    | some _ => i.val :: concCompleted inputs rest
    | none => [i.val]

/-- Whether some chain along the completion order fails. -/
def concFails (inputs : List FetchResult) (order : List (Fin inputs.length)) : Bool :=
  order.any (fun i => (AsyncScript.scrape (inputs.get i)).isNone)

def nullStr : String := ""

/-- The artifact a chain persists, with a dummy default for failed chains
(only ever read for successful chains). -/
def artifactAt (inputs : List FetchResult) (i : Fin inputs.length) : Artifact :=
  (AsyncScript.scrape (inputs.get i)).getD (Artifact.mk nullStr nullStr)

/-- The extracted title of a chain's document, when extraction succeeds. -/
def chainTitle (f : FetchResult) : Option String :=
  match f with
  | FetchResult.err => none
  | FetchResult.ok d => (AsyncScript.extractRecord d).map AttributeRecord.title

/-! Concrete sample data used by witnesses and counterexamples. -/

/-- A tag whose subtree holds a single string. -/
def cellOf (s : String) : Cell := Cell.mk [s]

def titleText : String := "A Light in the Attic"

def keyPrice : String := "Price"

def valTen : String := "$10"

def valElevn : String := "$11"

def keyStock : String := "Stock"

def valIn : String := "In stock"

def sampleTitleCell : Cell := cellOf titleText

/-- Rows with a duplicated header text, to exercise last-duplicate-wins. -/
def sampleRows : List Row :=
  [Row.mk (some (cellOf keyPrice)) (some (cellOf valTen)),
   Row.mk (some (cellOf keyStock)) (some (cellOf valIn)),
   Row.mk (some (cellOf keyPrice)) (some (cellOf valElevn))]

def sampleDoc : Doc := Doc.mk (some (ProductMain.mk (some sampleTitleCell))) sampleRows

def samplePairs : List (String × String) :=
  [(keyPrice, valTen), (keyStock, valIn), (keyPrice, valElevn)]

/-- A well-formed title region but no attribute table: `select` returns no
rows at all. -/
def noTableDoc : Doc := Doc.mk (some (ProductMain.mk (some sampleTitleCell))) []

/-- The spec's notion of trimming: surrounding whitespace removed. This
definition follows the specification's words and is compared against what
the code computes; the code itself never trims. -/
def trimText (s : String) : String :=
  String.mk (((s.data.dropWhile Char.isWhitespace).reverse.dropWhile Char.isWhitespace).reverse)

def rawKey : String := " UPC "

def rawVal : String := " abc123 "

/-- A document whose only row has cell text with surrounding whitespace. -/
def wsDoc : Doc :=
  Doc.mk (some (ProductMain.mk (some sampleTitleCell)))
    [Row.mk (some (cellOf rawKey)) (some (cellOf rawVal))]

/-- A document whose table has a header-only row (no `td`). -/
def headerOnlyDoc : Doc :=
  Doc.mk (some (ProductMain.mk (some sampleTitleCell)))
    [Row.mk (some (cellOf keyPrice)) none]

def titleTwo : String := "Sharp Objects"

/-- A second well-formed document with a different title. -/
def docTwo : Doc :=
  Doc.mk (some (ProductMain.mk (some (cellOf titleTwo))))
    [Row.mk (some (cellOf keyStock)) (some (cellOf valIn))]

/-- Two targets: the first fails at fetch, the second has a well-formed
document. -/
def failFirstInputs : List FetchResult := [FetchResult.err, FetchResult.ok sampleDoc]

/-- A completion order in which the failing chain completes first. -/
def failFirstOrder : List (Fin failFirstInputs.length) := [⟨0, by decide⟩, ⟨1, by decide⟩]

/-- A mapping with distinct keys, as extracted from a product page. -/
def persistPairs : List (String × String) := [(keyPrice, valTen), (keyStock, valIn)]

/-- Two targets with well-formed documents and distinct titles. -/
def twoGoodInputs : List FetchResult := [FetchResult.ok sampleDoc, FetchResult.ok docTwo]

/-- A completion order opposite to the submission order. -/
def twoGoodOrder : List (Fin twoGoodInputs.length) := [⟨1, by decide⟩, ⟨0, by decide⟩]

theorem asyncExtract_eq_syncExtract : AsyncScript.extractRecord = SyncScript.extractRecord := rfl

theorem asyncScrape_eq_syncScrape : AsyncScript.scrape = SyncScript.scrape := rfl

/-! Lemmas about the dict semantics of the extraction comprehension. -/

theorem keysOf_map_replace (m : List (String × String)) (k v : String) :
    keysOf (m.map (fun p => if p.1 = k then (k, v) else p)) = keysOf m := by
  unfold keysOf
  rw [List.map_map]
  apply List.map_congr_left
  intro p _
  by_cases h : p.1 = k <;> simp [h]

theorem keysOf_dictInsert (m : List (String × String)) (k v : String) :
    keysOf (dictInsert m k v) = if k ∈ keysOf m then keysOf m else keysOf m ++ [k] := by
  unfold dictInsert
  by_cases h : k ∈ keysOf m
  · rw [if_pos h, if_pos h, keysOf_map_replace]
  · rw [if_neg h, if_neg h]
    simp [keysOf]

theorem lookupKV_map_replace_self (m : List (String × String)) (k v : String)
    (h : k ∈ keysOf m) :
    lookupKV (m.map (fun p => if p.1 = k then (k, v) else p)) k = some v := by
  induction m with
  | nil => simp [keysOf] at h
  | cons p ps ih =>
    by_cases hp : p.1 = k
    · simp [lookupKV, hp]
    · have h' : k ∈ keysOf ps := by
        simp only [keysOf, List.map_cons, List.mem_cons] at h
        rcases h with h | h
        · exact absurd h.symm hp
        · exact h
      simp [lookupKV, hp, ih h']

theorem lookupKV_map_replace_ne (m : List (String × String)) (k v k' : String)
    (h : k' ≠ k) :
    lookupKV (m.map (fun p => if p.1 = k then (k, v) else p)) k' = lookupKV m k' := by
  induction m with
  | nil => rfl
  | cons p ps ih =>
    by_cases hp : p.1 = k
    · have hk : ¬ (k = k') := fun he => h he.symm
      have hp' : ¬ (p.1 = k') := by rw [hp]; exact hk
      simp [lookupKV, hp, hk, hp', ih]
    · by_cases hq : p.1 = k'
      · simp [lookupKV, hp, hq, h]
      · simp [lookupKV, hp, hq, ih]

theorem lookupKV_append_single (m : List (String × String)) (k v k' : String)
    (h : k ∉ keysOf m) :
    lookupKV (m ++ [(k, v)]) k' = if k' = k then some v else lookupKV m k' := by
  induction m with
  | nil =>
    by_cases hk : k = k'
    · simp [lookupKV, hk]
    · have hk' : ¬ (k' = k) := fun he => hk he.symm
      simp [lookupKV, hk, hk']
  | cons p ps ih =>
    have hpk : ¬ (p.1 = k) := by
      intro he
      exact h (by simp [keysOf, he])
    have hps : k ∉ keysOf ps := by
      intro he
      exact h (by simp [keysOf] at he ⊢; right; exact he)
    by_cases hq : p.1 = k'
    · have hk' : ¬ (k' = k) := by
        intro he
        exact hpk (hq.trans he)
      simp [lookupKV, hq, hk']
    · simp [lookupKV, hq, ih hps]

theorem lookupKV_dictInsert (m : List (String × String)) (k v k' : String) :
    lookupKV (dictInsert m k v) k' = if k' = k then some v else lookupKV m k' := by
  unfold dictInsert
  by_cases hmem : k ∈ keysOf m
  · rw [if_pos hmem]
    by_cases h : k' = k
    · subst h
      rw [if_pos rfl]
      exact lookupKV_map_replace_self m k' v hmem
    · rw [if_neg h]
      exact lookupKV_map_replace_ne m k v k' h
  · rw [if_neg hmem]
    exact lookupKV_append_single m k v k' hmem

theorem mem_dictInsert (m : List (String × String)) (k v : String)
    (p : String × String) (h : p ∈ dictInsert m k v) : p ∈ m ∨ p = (k, v) := by
  unfold dictInsert at h
  by_cases hmem : k ∈ keysOf m
  · rw [if_pos hmem] at h
    rcases List.mem_map.mp h with ⟨q, hq, he⟩
    by_cases hqk : q.1 = k
    · right
      rw [if_pos hqk] at he
      exact he.symm
    · left
      rw [if_neg hqk] at he
      exact he ▸ hq
  · rw [if_neg hmem] at h
    rcases List.mem_append.mp h with h | h
    · exact Or.inl h
    · exact Or.inr (List.mem_singleton.mp h)

theorem nodup_keysOf_dictInsert (m : List (String × String)) (k v : String)
    (h : (keysOf m).Nodup) : (keysOf (dictInsert m k v)).Nodup := by
  rw [keysOf_dictInsert]
  by_cases hmem : k ∈ keysOf m
  · rw [if_pos hmem]
    exact h
  · rw [if_neg hmem]
    simp [List.nodup_append, h, hmem]

theorem foldInsert_cons (m : List (String × String)) (p : String × String)
    (ps : List (String × String)) :
    foldInsert m (p :: ps) = foldInsert (dictInsert m p.1 p.2) ps := rfl

theorem keysOf_foldInsert (ps : List (String × String)) :
    ∀ m, keysOf (foldInsert m ps) = firstOccAux (keysOf m) (ps.map Prod.fst) := by
  induction ps with
  | nil => intro m; rfl
  | cons p ps ih =>
    intro m
    rw [foldInsert_cons, ih]
    simp only [List.map_cons, firstOccAux]
    by_cases h : p.1 ∈ keysOf m <;> simp [keysOf_dictInsert, h]

theorem lookupKV_foldInsert (ps : List (String × String)) :
    ∀ m k, lookupKV (foldInsert m ps) k = orO (lastAssoc ps k) (lookupKV m k) := by
  induction ps with
  | nil => intro m k; rfl
  | cons p ps ih =>
    intro m k
    rw [foldInsert_cons, ih, lookupKV_dictInsert]
    simp only [lastAssoc]
    cases hl : lastAssoc ps k with
    | some v => simp [orO]
    | none =>
      simp only [orO]
      by_cases h : p.1 = k
      · rw [if_pos h.symm, if_pos h]
      · rw [if_neg (fun he => h he.symm), if_neg h]

theorem nodup_keysOf_foldInsert (ps : List (String × String)) :
    ∀ m, (keysOf m).Nodup → (keysOf (foldInsert m ps)).Nodup := by
  induction ps with
  | nil => intro m h; exact h
  | cons p ps ih =>
    intro m h
    rw [foldInsert_cons]
    exact ih _ (nodup_keysOf_dictInsert m p.1 p.2 h)

theorem mem_firstOccAux (l : List String) :
    ∀ acc x, x ∈ firstOccAux acc l ↔ x ∈ acc ∨ x ∈ l := by
  induction l with
  | nil => intro acc x; simp [firstOccAux]
  | cons k ks ih =>
    intro acc x
    by_cases h : k ∈ acc
    · simp only [firstOccAux, if_pos h, ih]
      constructor
      · rintro (hx | hx)
        · exact Or.inl hx
        · exact Or.inr (List.mem_cons_of_mem _ hx)
      · rintro (hx | hx)
        · exact Or.inl hx
        · rcases List.mem_cons.mp hx with hx | hx
          · exact Or.inl (hx ▸ h)
          · exact Or.inr hx
    · simp only [firstOccAux, if_neg h, ih]
      constructor
      · rintro (hx | hx)
        · rcases List.mem_append.mp hx with hx | hx
          · exact Or.inl hx
          · exact Or.inr (by simp [List.mem_singleton.mp hx])
        · exact Or.inr (List.mem_cons_of_mem _ hx)
      · rintro (hx | hx)
        · exact Or.inl (List.mem_append.mpr (Or.inl hx))
        · rcases List.mem_cons.mp hx with hx | hx
          · exact Or.inl (List.mem_append.mpr (Or.inr (by simp [hx])))
          · exact Or.inr hx

theorem buildInfo_eq_foldInsert (rows : List Row) :
    ∀ ps m, rowPairs rows = some ps → buildInfo rows m = some (foldInsert m ps) := by
  induction rows with
  | nil =>
    intro ps m h
    simp only [rowPairs, Option.some.injEq] at h
    subst h
    rfl
  | cons r rs ih =>
    intro ps m h
    obtain ⟨th, td⟩ := r
    cases th with
    | none => simp [rowPairs] at h
    | some hc =>
      cases td with
      | none => simp [rowPairs] at h
      | some dc =>
        simp only [rowPairs, Option.map_eq_some'] at h
        rcases h with ⟨ps', hps, hcons⟩
        subst hcons
        simp only [buildInfo]
        exact ih ps' _ hps

theorem buildInfo_of_badRow (rows : List Row) :
    ∀ m, (∃ r ∈ rows, r.th = none ∨ r.td = none) → buildInfo rows m = none := by
  induction rows with
  | nil =>
    intro m h
    rcases h with ⟨r, hr, _⟩
    simp at hr
  | cons r rs ih =>
    intro m h
    obtain ⟨th, td⟩ := r
    rcases h with ⟨r', hr', hbad⟩
    rcases List.mem_cons.mp hr' with heq | hmem
    · subst heq
      rcases hbad with hbad | hbad
      · simp only at hbad
        subst hbad
        rfl
      · simp only at hbad
        subst hbad
        cases th <;> rfl
    · cases th with
      | none => rfl
      | some hc =>
        cases td with
        | none => rfl
        | some dc =>
          simp only [buildInfo]
          exact ih _ ⟨r', hmem, hbad⟩

theorem mem_buildInfo (rows : List Row) :
    ∀ m info, buildInfo rows m = some info → ∀ p ∈ info,
      p ∈ m ∨ ∃ r ∈ rows, ∃ hc dc, r.th = some hc ∧ r.td = some dc ∧
        p = (hc.text, dc.text) := by
  induction rows with
  | nil =>
    intro m info h p hp
    simp only [buildInfo, Option.some.injEq] at h
    subst h
    exact Or.inl hp
  | cons r rs ih =>
    intro m info h p hp
    obtain ⟨th, td⟩ := r
    cases th with
    | none => simp [buildInfo] at h
    | some hc =>
      cases td with
      | none => simp [buildInfo] at h
      | some dc =>
        simp only [buildInfo] at h
        rcases ih _ _ h p hp with hm | ⟨r', hr', hw⟩
        · rcases mem_dictInsert _ _ _ _ hm with hm | hm
          · exact Or.inl hm
          · refine Or.inr ⟨⟨some hc, some dc⟩, List.mem_cons_self _ _, hc, dc, rfl, rfl, hm⟩
        · exact Or.inr ⟨r', List.mem_cons_of_mem _ hr', hw⟩

/-- C1: for a well-formed document (title region present, every selected row
has a header and a data cell, with pairs `ps` of header/data texts), the
extraction of both scripts succeeds, the keys of the resulting mapping are
the header-cell texts in document order of first occurrence, the key set
equals the set of header-cell texts, and the value of each key is the data
text of the last row carrying that header (last-duplicate-wins). -/
theorem C1_extract_keys_last_dup_wins (d : Doc) (pm : ProductMain) (c : Cell)
    (ps : List (String × String))
    (h1 : d.productMain = some pm) (h2 : pm.h1 = some c)
    (h3 : rowPairs d.tableRows = some ps) :
    ∃ info, SyncScript.extractRecord d = some (AttributeRecord.mk c.text info) ∧
      AsyncScript.extractRecord d = some (AttributeRecord.mk c.text info) ∧
      keysOf info = firstOcc (ps.map Prod.fst) ∧
      (∀ k, k ∈ keysOf info ↔ k ∈ ps.map Prod.fst) ∧
      (∀ k, lookupKV info k = lastAssoc ps k) := by
  have hb := buildInfo_eq_foldInsert d.tableRows ps [] h3
  obtain ⟨dpm, drows⟩ := d
  obtain ⟨ph⟩ := pm
  simp only at h1 h2 hb
  subst h1
  subst h2
  refine ⟨foldInsert [] ps, ?_, ?_, ?_, ?_, ?_⟩
  · simp only [SyncScript.extractRecord, hb, Option.map_some']
  · rw [asyncExtract_eq_syncExtract]
    simp only [SyncScript.extractRecord, hb, Option.map_some']
  · rw [keysOf_foldInsert]
    rfl
  · intro k
    rw [keysOf_foldInsert]
    have h := mem_firstOccAux (ps.map Prod.fst) (keysOf []) k
    simpa [keysOf] using h
  · intro k
    rw [lookupKV_foldInsert]
    cases lastAssoc ps k <;> rfl

/-- Witness for C1 at a concrete document with a duplicated header. -/
theorem C1_witness :
    ∃ info, SyncScript.extractRecord sampleDoc =
        some (AttributeRecord.mk sampleTitleCell.text info) ∧
      AsyncScript.extractRecord sampleDoc =
        some (AttributeRecord.mk sampleTitleCell.text info) ∧
      keysOf info = firstOcc (samplePairs.map Prod.fst) ∧
      (∀ k, k ∈ keysOf info ↔ k ∈ samplePairs.map Prod.fst) ∧
      (∀ k, lookupKV info k = lastAssoc samplePairs k) :=
  C1_extract_keys_last_dup_wins sampleDoc (ProductMain.mk (some sampleTitleCell))
    sampleTitleCell samplePairs rfl rfl (by decide)

/-- C2 is refuted: a document with the title region but no attribute table
does not fail; extraction yields the empty mapping, and the chain persists
an artifact whose content is the empty JSON object. -/
theorem C2_counterexample :
    SyncScript.extractRecord noTableDoc = some (AttributeRecord.mk titleText []) ∧
    SyncScript.scrape (FetchResult.ok noTableDoc) =
      some (Artifact.mk (dataDir ++ underscore titleText ++ jsonExt) (dumps [])) ∧
    AsyncScript.scrape (FetchResult.ok noTableDoc) =
      some (Artifact.mk (dataDir ++ underscore titleText ++ jsonExt) (dumps [])) := by
  decide

/-- C2 amended: a document with the title region but no selected table rows
produces — and the chain persists — an empty AttributeRecord serialized as
the empty JSON object; only a missing title region (or a title region
without an `h1`) makes extraction fail fatally. -/
theorem C2_no_table_gives_empty_record (d : Doc) (pm : ProductMain) (c : Cell)
    (h1 : d.productMain = some pm) (h2 : pm.h1 = some c) (h3 : d.tableRows = []) :
    SyncScript.extractRecord d = some (AttributeRecord.mk c.text []) ∧
    SyncScript.scrape (FetchResult.ok d) = some (SyncScript.save_product c.text []) ∧
    AsyncScript.scrape (FetchResult.ok d) = some (AsyncScript.save_product c.text []) ∧
    (∀ d' : Doc, d'.productMain = none → SyncScript.extractRecord d' = none) ∧
    (∀ (d' : Doc) (pm' : ProductMain), d'.productMain = some pm' → pm'.h1 = none →
      SyncScript.extractRecord d' = none) := by
  obtain ⟨dpm, drows⟩ := d
  obtain ⟨ph⟩ := pm
  simp only at h1 h2 h3
  subst h1
  subst h2
  subst h3
  refine ⟨rfl, rfl, rfl, ?_, ?_⟩
  · intro d' h'
    obtain ⟨dpm', drows'⟩ := d'
    simp only at h'
    subst h'
    rfl
  · intro d' pm' h' h''
    obtain ⟨dpm', drows'⟩ := d'
    obtain ⟨ph'⟩ := pm'
    simp only at h' h''
    subst h'
    subst h''
    rfl

/-- Witness for the amended C2 at the concrete no-table document. -/
theorem C2_witness :
    SyncScript.extractRecord noTableDoc =
      some (AttributeRecord.mk sampleTitleCell.text []) ∧
    SyncScript.scrape (FetchResult.ok noTableDoc) =
      some (SyncScript.save_product sampleTitleCell.text []) ∧
    AsyncScript.scrape (FetchResult.ok noTableDoc) =
      some (AsyncScript.save_product sampleTitleCell.text []) ∧
    (∀ d' : Doc, d'.productMain = none → SyncScript.extractRecord d' = none) ∧
    (∀ (d' : Doc) (pm' : ProductMain), d'.productMain = some pm' → pm'.h1 = none →
      SyncScript.extractRecord d' = none) :=
  C2_no_table_gives_empty_record noTableDoc (ProductMain.mk (some sampleTitleCell))
    sampleTitleCell rfl rfl rfl

/-- C8 is refuted: the mapping keeps the cells' text content verbatim. At a
row whose header text carries surrounding whitespace the extracted key is
the untrimmed text, not the trimmed one the claim predicts. -/
theorem C8_counterexample :
    SyncScript.extractRecord wsDoc =
      some (AttributeRecord.mk titleText [(rawKey, rawVal)]) ∧
    rawKey ≠ trimText rawKey ∧ rawVal ≠ trimText rawVal := by
  decide

/-- C8 amended: for every entry of the extracted mapping, the key and the
value are verbatim the display text content (the concatenated strings, no
markup) of the header cell and the data cell of some selected row; no
trimming is applied, surrounding whitespace is preserved as-is. -/
theorem C8_cell_text_verbatim (rows : List Row) (info : List (String × String))
    (h : buildInfo rows [] = some info) :
    ∀ p ∈ info, ∃ r ∈ rows, ∃ hc dc, r.th = some hc ∧ r.td = some dc ∧
      p.1 = hc.text ∧ p.2 = dc.text := by
  intro p hp
  rcases mem_buildInfo rows [] info h p hp with hm | ⟨r, hr, hc, dc, h1, h2, h3⟩
  · simp at hm
  · exact ⟨r, hr, hc, dc, h1, h2, congrArg Prod.fst h3, congrArg Prod.snd h3⟩

/-- Witness for the amended C8 at the whitespace document. -/
theorem C8_witness :
    buildInfo wsDoc.tableRows [] = some [(rawKey, rawVal)] ∧
    ∀ p ∈ [(rawKey, rawVal)], ∃ r ∈ wsDoc.tableRows, ∃ hc dc,
      r.th = some hc ∧ r.td = some dc ∧ p.1 = hc.text ∧ p.2 = dc.text :=
  ⟨by decide, C8_cell_text_verbatim wsDoc.tableRows [(rawKey, rawVal)] (by decide)⟩

/-- C9: a selected row lacking a header cell or a data cell makes extraction
fail fatally for the target (the attribute access on the missing cell
raises), even when the title region is present; no artifact is produced,
the row is neither skipped nor replaced by a placeholder entry. -/
theorem C9_missing_cell_fatal (d : Doc) (pm : ProductMain) (c : Cell)
    (h1 : d.productMain = some pm) (h2 : pm.h1 = some c)
    (hbad : ∃ r ∈ d.tableRows, r.th = none ∨ r.td = none) :
    SyncScript.extractRecord d = none ∧
    SyncScript.scrape (FetchResult.ok d) = none ∧
    AsyncScript.scrape (FetchResult.ok d) = none := by
  have hb := buildInfo_of_badRow d.tableRows [] hbad
  obtain ⟨dpm, drows⟩ := d
  obtain ⟨ph⟩ := pm
  simp only at h1 h2 hb
  subst h1
  subst h2
  refine ⟨?_, ?_, ?_⟩
  · simp only [SyncScript.extractRecord, hb, Option.map_none']
  · simp only [SyncScript.scrape, SyncScript.extractRecord, hb, Option.map_none']
  · rw [asyncScrape_eq_syncScrape]
    simp only [SyncScript.scrape, SyncScript.extractRecord, hb, Option.map_none']

/-- Witness for C9 at a document with a header-only row. -/
theorem C9_witness :
    SyncScript.extractRecord headerOnlyDoc = none ∧
    SyncScript.scrape (FetchResult.ok headerOnlyDoc) = none ∧
    AsyncScript.scrape (FetchResult.ok headerOnlyDoc) = none :=
  C9_missing_cell_fatal headerOnlyDoc (ProductMain.mk (some sampleTitleCell))
    sampleTitleCell rfl rfl
    ⟨Row.mk (some (cellOf keyPrice)) none, by decide, Or.inr rfl⟩

/-- C10: extraction and persistence are deterministic in the parsed body —
on equal documents both scripts' chains yield equal records, and the
synchronous and asynchronous chains agree on the artifact (same path, same
byte content). -/
theorem C10_deterministic (d1 d2 : Doc) (h : d1 = d2) :
    SyncScript.extractRecord d1 = SyncScript.extractRecord d2 ∧
    AsyncScript.extractRecord d1 = AsyncScript.extractRecord d2 ∧
    SyncScript.scrape (FetchResult.ok d1) = SyncScript.scrape (FetchResult.ok d2) ∧
    AsyncScript.scrape (FetchResult.ok d1) = AsyncScript.scrape (FetchResult.ok d2) ∧
    SyncScript.scrape (FetchResult.ok d1) = AsyncScript.scrape (FetchResult.ok d2) := by
  subst h
  exact ⟨rfl, rfl, rfl, rfl, by rw [asyncScrape_eq_syncScrape]⟩

/-- Witness for C10 at the sample document. -/
theorem C10_witness :
    SyncScript.extractRecord sampleDoc = SyncScript.extractRecord sampleDoc ∧
    AsyncScript.extractRecord sampleDoc = AsyncScript.extractRecord sampleDoc ∧
    SyncScript.scrape (FetchResult.ok sampleDoc) =
      SyncScript.scrape (FetchResult.ok sampleDoc) ∧
    AsyncScript.scrape (FetchResult.ok sampleDoc) =
      AsyncScript.scrape (FetchResult.ok sampleDoc) ∧
    SyncScript.scrape (FetchResult.ok sampleDoc) =
      AsyncScript.scrape (FetchResult.ok sampleDoc) :=
  C10_deterministic sampleDoc sampleDoc rfl

/-! Characterization of the two orchestrators. -/

theorem seqRun_eq (rest : List FetchResult) :
    ∀ i fets acc, SyncScript.seqRun i rest fets acc =
      RunResult.mk (fets.reverse ++ attempted i rest)
        (acc.reverse ++ successArtifacts i rest)
        (fets.reverse ++ attempted i rest)
        (!hasFailure rest) (hasFailure rest) := by
  induction rest with
  | nil =>
    intro i fets acc
    simp [SyncScript.seqRun, attempted, successArtifacts, hasFailure]
  | cons f rest ih =>
    intro i fets acc
    cases hsf : SyncScript.scrape f with
    | some a =>
      simp only [SyncScript.seqRun, hsf, ih, attempted, successArtifacts, hasFailure,
        List.any_cons, Option.isNone_some, Bool.false_or, List.reverse_cons,
        List.append_assoc, List.cons_append, List.nil_append]
    | none =>
      simp [SyncScript.seqRun, hsf, attempted, successArtifacts, hasFailure]

theorem main_sync_eq (inputs : List FetchResult) :
    SyncScript.main inputs =
      RunResult.mk (attempted 0 inputs) (successArtifacts 0 inputs)
        (attempted 0 inputs) (!hasFailure inputs) (hasFailure inputs) := by
  rw [SyncScript.main, seqRun_eq]
  rfl

theorem concGo_eq (inputs : List FetchResult) (order : List (Fin inputs.length)) :
    ∀ comp acc, AsyncScript.concGo inputs order comp acc =
      RunResult.mk (List.range inputs.length)
        (acc.reverse ++ concWritten inputs order)
        (comp.reverse ++ concCompleted inputs order)
        (!concFails inputs order) (concFails inputs order) := by
  induction order with
  | nil =>
    intro comp acc
    simp [AsyncScript.concGo, concWritten, concCompleted, concFails]
  | cons i rest ih =>
    intro comp acc
    cases hsf : AsyncScript.scrape (inputs.get i) with
    | some a =>
      simp only [AsyncScript.concGo, hsf, ih, concWritten, concCompleted, concFails,
        List.get_eq_getElem, List.any_cons, Option.isNone_some, Bool.false_or,
        List.reverse_cons, List.append_assoc, List.cons_append, List.nil_append]
      rw [List.get_eq_getElem] at hsf
      simp only [hsf, List.any_cons, Option.isNone_some, Bool.false_or]
    | none =>
      rw [List.get_eq_getElem] at hsf
      simp [AsyncScript.concGo, hsf, concWritten, concCompleted, concFails,
        List.get_eq_getElem]

theorem main_async_eq (inputs : List FetchResult) (order : List (Fin inputs.length)) :
    AsyncScript.main inputs order =
      RunResult.mk (List.range inputs.length) (concWritten inputs order)
        (concCompleted inputs order)
        (!concFails inputs order) (concFails inputs order) := by
  rw [AsyncScript.main, concGo_eq]
  rfl

theorem concWritten_takeWhile (inputs : List FetchResult) (order : List (Fin inputs.length)) :
    concWritten inputs order =
      (order.takeWhile (fun i => (AsyncScript.scrape (inputs.get i)).isSome)).filterMap
        (fun i => (AsyncScript.scrape (inputs.get i)).map (fun a => (i.val, a))) := by
  induction order with
  | nil => rfl
  | cons i rest ih =>
    cases hsf : AsyncScript.scrape (inputs.get i) with
    | some a =>
      rw [List.get_eq_getElem] at hsf
      simp only [concWritten, hsf, List.get_eq_getElem, List.takeWhile_cons,
        Option.isSome_some, if_true, List.filterMap_cons, Option.map_some', ih]
    | none =>
      rw [List.get_eq_getElem] at hsf
      simp [concWritten, hsf, List.get_eq_getElem, List.takeWhile_cons]

theorem concWritten_allOk (inputs : List FetchResult) (order : List (Fin inputs.length))
    (h : ∀ i ∈ order, (AsyncScript.scrape (inputs.get i)).isSome) :
    concWritten inputs order = order.map (fun i => (i.val, artifactAt inputs i)) := by
  induction order with
  | nil => rfl
  | cons i rest ih =>
    have hi := h i (List.mem_cons_self i rest)
    cases hsf : AsyncScript.scrape (inputs.get i) with
    | some a =>
      have hrest : ∀ j ∈ rest, (AsyncScript.scrape (inputs.get j)).isSome :=
        fun j hj => h j (List.mem_cons_of_mem i hj)
      simp only [concWritten, hsf, List.map_cons, ih hrest, artifactAt, Option.getD_some]
    | none =>
      rw [hsf] at hi
      simp at hi

theorem concCompleted_allOk (inputs : List FetchResult) (order : List (Fin inputs.length))
    (h : ∀ i ∈ order, (AsyncScript.scrape (inputs.get i)).isSome) :
    concCompleted inputs order = order.map Fin.val := by
  induction order with
  | nil => rfl
  | cons i rest ih =>
    have hi := h i (List.mem_cons_self i rest)
    cases hsf : AsyncScript.scrape (inputs.get i) with
    | some a =>
      have hrest : ∀ j ∈ rest, (AsyncScript.scrape (inputs.get j)).isSome :=
        fun j hj => h j (List.mem_cons_of_mem i hj)
      simp only [concCompleted, hsf, List.map_cons, ih hrest]
    | none =>
      rw [hsf] at hi
      simp at hi

theorem concFails_allOk (inputs : List FetchResult) (order : List (Fin inputs.length))
    (h : ∀ i ∈ order, (AsyncScript.scrape (inputs.get i)).isSome) :
    concFails inputs order = false := by
  rw [concFails, List.any_eq_false]
  intro i hi
  have hx := h i hi
  cases hy : AsyncScript.scrape (inputs.get i) with
  | some a => simp [hy]
  | none =>
    rw [hy] at hx
    simp at hx

theorem hasFailure_allOk (l : List FetchResult)
    (h : ∀ f ∈ l, (SyncScript.scrape f).isSome) : hasFailure l = false := by
  rw [hasFailure, List.any_eq_false]
  intro f hf
  have hx := h f hf
  cases hy : SyncScript.scrape f with
  | some a => simp [hy]
  | none =>
    rw [hy] at hx
    simp at hx

theorem successArtifacts_allOk (l : List FetchResult)
    (h : ∀ f ∈ l, (SyncScript.scrape f).isSome) :
    ∀ k, successArtifacts k l =
      (List.finRange l.length).map (fun i => (k + i.val, artifactAt l i)) := by
  induction l with
  | nil =>
    intro k
    simp [successArtifacts, List.finRange_zero]
  | cons f rest ih =>
    intro k
    have hf := h f (List.mem_cons_self f rest)
    cases hsf : SyncScript.scrape f with
    | none =>
      rw [hsf] at hf
      simp at hf
    | some a =>
      have hrest : ∀ g ∈ rest, (SyncScript.scrape g).isSome :=
        fun g hg => h g (List.mem_cons_of_mem f hg)
      simp only [List.length_cons]
      rw [List.finRange_succ_eq_map]
      simp only [successArtifacts, hsf, List.map_cons, List.map_map]
      congr 1
      · show (k, a) =
          (k + (0 : Fin (rest.length + 1)).val,
            artifactAt (f :: rest) (0 : Fin (rest.length + 1)))
        unfold artifactAt
        rw [asyncScrape_eq_syncScrape]
        show (k, a) = (k + 0, (SyncScript.scrape f).getD (Artifact.mk nullStr nullStr))
        rw [hsf]
        show (k, a) = (k + 0, a)
        simp
      · rw [ih hrest (k + 1)]
        apply List.map_congr_left
        intro i _
        simp only [Function.comp_apply, Fin.val_succ, Prod.mk.injEq]
        constructor
        · omega
        · rfl

theorem successArtifactsUpToFailure (f : FetchResult) (post : List FetchResult)
    (hf : SyncScript.scrape f = none) (pre : List FetchResult) :
    ∀ i, (∀ g ∈ pre, (SyncScript.scrape g).isSome) →
      successArtifacts i (pre ++ f :: post) = successArtifacts i pre := by
  induction pre with
  | nil =>
    intro i _
    simp [successArtifacts, hf]
  | cons g pre ih =>
    intro i h
    have hg := h g (List.mem_cons_self g pre)
    cases hsg : SyncScript.scrape g with
    | none =>
      rw [hsg] at hg
      simp at hg
    | some a =>
      simp only [List.cons_append, successArtifacts, hsg, List.append_eq]
      rw [ih (i + 1) (fun x hx => h x (List.mem_cons_of_mem g hx))]

theorem attemptedUpToFailure (f : FetchResult) (post : List FetchResult)
    (hf : SyncScript.scrape f = none) (pre : List FetchResult) :
    ∀ i, (∀ g ∈ pre, (SyncScript.scrape g).isSome) →
      attempted i (pre ++ f :: post) = List.range' i (pre.length + 1) := by
  induction pre with
  | nil =>
    intro i _
    simp [attempted, hf, List.range']
  | cons g pre ih =>
    intro i h
    have hg := h g (List.mem_cons_self g pre)
    cases hsg : SyncScript.scrape g with
    | none =>
      rw [hsg] at hg
      simp at hg
    | some a =>
      simp only [List.cons_append, attempted, hsg, List.length_cons, List.append_eq]
      rw [ih (i + 1) (fun x hx => h x (List.mem_cons_of_mem g hx))]
      rfl

theorem hasFailure_append_true (pre post : List FetchResult) (f : FetchResult)
    (hf : SyncScript.scrape f = none) : hasFailure (pre ++ f :: post) = true := by
  simp [hasFailure, List.any_append, List.any_cons, hf]

theorem successArtifacts_lt (l : List FetchResult) :
    ∀ i k a, (k, a) ∈ successArtifacts i l → k < i + l.length := by
  induction l with
  | nil =>
    intro i k a h
    simp [successArtifacts] at h
  | cons f rest ih =>
    intro i k a h
    cases hsf : SyncScript.scrape f with
    | none =>
      rw [successArtifacts, hsf] at h
      simp at h
    | some b =>
      rw [successArtifacts, hsf] at h
      rcases List.mem_cons.mp h with heq | hm
      · have hki : k = i := congrArg Prod.fst heq
        subst hki
        simp only [List.length_cons]
        omega
      · have hlt := ih (i + 1) k a hm
        simp only [List.length_cons]
        omega

/-- C6: the sequential run processes targets in list order and a failing
chain is fatal: the run errors without printing the timing line, exactly the
targets up to and including the failing one had their fetch issued, the
persisted artifacts are those of the successful prefix in order, and no
target after the failing one is fetched or persisted. -/
theorem C6_sequential_in_order_failure_fatal (pre post : List FetchResult)
    (f : FetchResult)
    (hpre : ∀ g ∈ pre, (SyncScript.scrape g).isSome)
    (hf : SyncScript.scrape f = none) :
    SyncScript.main (pre ++ f :: post) =
      RunResult.mk (List.range' 0 (pre.length + 1)) (successArtifacts 0 pre)
        (List.range' 0 (pre.length + 1)) false true ∧
    (∀ k, k ∈ List.range' 0 (pre.length + 1) ↔ k < pre.length + 1) ∧
    (∀ k a, (k, a) ∈ successArtifacts 0 pre → k < pre.length) := by
  refine ⟨?_, ?_, ?_⟩
  · rw [main_sync_eq]
    rw [attemptedUpToFailure f post hf pre 0 hpre,
        successArtifactsUpToFailure f post hf pre 0 hpre,
        hasFailure_append_true pre post f hf]
    rfl
  · intro k
    rw [List.mem_range'_1]
    omega
  · intro k a h
    have := successArtifacts_lt pre 0 k a h
    omega

/-- Witness for C6: a successful target, then a failing fetch, then another
target; the run stops at the failure and never touches the third target. -/
theorem C6_witness :
    SyncScript.main ([FetchResult.ok sampleDoc] ++ FetchResult.err :: [FetchResult.ok docTwo]) =
      RunResult.mk (List.range' 0 2) (successArtifacts 0 [FetchResult.ok sampleDoc])
        (List.range' 0 2) false true ∧
    (∀ k, k ∈ List.range' 0 2 ↔ k < 2) ∧
    (∀ k a, (k, a) ∈ successArtifacts 0 [FetchResult.ok sampleDoc] → k < 1) :=
  C6_sequential_in_order_failure_fatal [FetchResult.ok sampleDoc] [FetchResult.ok docTwo]
    FetchResult.err (by decide) (by decide)

/-- C3 is refuted: with a fetch failure completing first, the aggregate wait
raises and the sibling chain — whose document is well-formed and whose chain
would produce an artifact — is abandoned: the run produces no artifact at
all for it. -/
theorem C3_counterexample :
    AsyncScript.scrape (FetchResult.ok sampleDoc) ≠ none ∧
    (AsyncScript.main failFirstInputs failFirstOrder).written = [] ∧
    (AsyncScript.main failFirstInputs failFirstOrder).error = true := by
  decide

/-- C3 amended: a fetch failure aborts that target's chain and makes the
aggregate wait fail; sibling chains that completed before the failure keep
their artifacts, but siblings not yet completed when the failure propagates
are abandoned — the artifacts written are exactly those of the successful
chains preceding the first failing completion. -/
theorem C3_failure_abandons_pending (inputs : List FetchResult)
    (order : List (Fin inputs.length)) :
    (AsyncScript.main inputs order).written =
      (order.takeWhile (fun i => (AsyncScript.scrape (inputs.get i)).isSome)).filterMap
        (fun i => (AsyncScript.scrape (inputs.get i)).map (fun a => (i.val, a))) ∧
    (AsyncScript.main inputs order).error = concFails inputs order := by
  rw [main_async_eq]
  exact ⟨concWritten_takeWhile inputs order, rfl⟩

/-- C7 is refuted: on a failing chain the orchestrator resumes — the run
ends with the error — while the sibling chain has not completed, so the
orchestrator does not suspend until every chain has completed. -/
theorem C7_counterexample :
    (AsyncScript.main failFirstInputs failFirstOrder).error = true ∧
    (1 : Nat) ∉ (AsyncScript.main failFirstInputs failFirstOrder).completed ∧
    AsyncScript.scrape (FetchResult.ok docTwo) ≠ none := by
  decide

/-- C7 amended: the timing line is printed only when every scheduled chain
has completed (which, with the aggregate wait failing on the first error,
means all completed successfully); whenever the run errors the timing line
is not printed. The orchestrator does not wait out failed runs: it resumes
at the first failing completion. -/
theorem C7_timing_after_all_complete (inputs : List FetchResult)
    (order : List (Fin inputs.length))
    (hperm : order.Perm (List.finRange inputs.length)) :
    ((AsyncScript.main inputs order).timingPrinted = true →
      (∀ j, j < inputs.length → j ∈ (AsyncScript.main inputs order).completed) ∧
      (AsyncScript.main inputs order).error = false) ∧
    ((AsyncScript.main inputs order).error = true →
      (AsyncScript.main inputs order).timingPrinted = false) := by
  rw [main_async_eq]
  refine ⟨?_, ?_⟩
  · intro ht
    have ht' : (!concFails inputs order) = true := ht
    have hcf : concFails inputs order = false := by
      cases hx : concFails inputs order
      · rfl
      · rw [hx] at ht'
        simp at ht'
    have hall : ∀ i ∈ order, (AsyncScript.scrape (inputs.get i)).isSome := by
      have h2 := hcf
      rw [concFails, List.any_eq_false] at h2
      intro i hi
      have h3 := h2 i hi
      cases hy : AsyncScript.scrape (inputs.get i) with
      | none =>
        rw [hy] at h3
        simp at h3
      | some a => simp [hy]
    refine ⟨?_, hcf⟩
    intro j hj
    show j ∈ concCompleted inputs order
    rw [concCompleted_allOk inputs order hall]
    have hmem : j ∈ (List.finRange inputs.length).map Fin.val := by
      rw [List.mem_map]
      exact ⟨⟨j, hj⟩, List.mem_finRange _, rfl⟩
    exact ((hperm.map Fin.val).mem_iff).mpr hmem
  · intro he
    have he' : concFails inputs order = true := he
    show (!concFails inputs order) = false
    rw [he']
    rfl

/-- Witness for the amended C7 at two successful chains completing in the
opposite of submission order. -/
theorem C7_witness :
    ((AsyncScript.main twoGoodInputs twoGoodOrder).timingPrinted = true →
      (∀ j, j < twoGoodInputs.length →
        j ∈ (AsyncScript.main twoGoodInputs twoGoodOrder).completed) ∧
      (AsyncScript.main twoGoodInputs twoGoodOrder).error = false) ∧
    ((AsyncScript.main twoGoodInputs twoGoodOrder).error = true →
      (AsyncScript.main twoGoodInputs twoGoodOrder).timingPrinted = false) :=
  C7_timing_after_all_complete twoGoodInputs twoGoodOrder (by decide)

/-- C4: when every chain succeeds, the concurrent run — under any completion
order that is a permutation of all chains — persists exactly N artifacts,
and per target the artifact (path and content) is the one the sequential run
persists: the tagged artifact lists are permutations of each other and agree
on membership. -/
theorem C4_concurrent_matches_sequential (inputs : List FetchResult)
    (order : List (Fin inputs.length))
    (hok : ∀ f ∈ inputs, (SyncScript.scrape f).isSome)
    (hperm : order.Perm (List.finRange inputs.length))
    (htitles : (inputs.filterMap chainTitle).Nodup) :
    (AsyncScript.main inputs order).written.length = inputs.length ∧
    ((AsyncScript.main inputs order).written).Perm ((SyncScript.main inputs).written) ∧
    (∀ k a, ((k, a) ∈ (AsyncScript.main inputs order).written ↔
      (k, a) ∈ (SyncScript.main inputs).written)) := by
  have hokA : ∀ i ∈ order, (AsyncScript.scrape (inputs.get i)).isSome := by
    intro i _
    rw [asyncScrape_eq_syncScrape]
    exact hok _ (inputs.get_mem i.1 i.2)
  have hconc : (AsyncScript.main inputs order).written =
      order.map (fun i => (i.val, artifactAt inputs i)) := by
    rw [main_async_eq]
    exact concWritten_allOk inputs order hokA
  have hseq : (SyncScript.main inputs).written =
      (List.finRange inputs.length).map (fun i => (i.val, artifactAt inputs i)) := by
    rw [main_sync_eq]
    show successArtifacts 0 inputs = _
    rw [successArtifacts_allOk inputs hok 0]
    apply List.map_congr_left
    intro i _
    simp
  have hp : ((AsyncScript.main inputs order).written).Perm
      ((SyncScript.main inputs).written) := by
    rw [hconc, hseq]
    exact hperm.map _
  refine ⟨?_, hp, ?_⟩
  · rw [hconc, List.length_map, hperm.length_eq]
    exact List.length_finRange _
  · intro k a
    exact hp.mem_iff

/-- Witness for C4 at two well-formed targets with distinct titles and a
completion order opposite to submission order. -/
theorem C4_witness :
    (AsyncScript.main twoGoodInputs twoGoodOrder).written.length = twoGoodInputs.length ∧
    ((AsyncScript.main twoGoodInputs twoGoodOrder).written).Perm
      ((SyncScript.main twoGoodInputs).written) ∧
    (∀ k a, ((k, a) ∈ (AsyncScript.main twoGoodInputs twoGoodOrder).written ↔
      (k, a) ∈ (SyncScript.main twoGoodInputs).written)) :=
  C4_concurrent_matches_sequential twoGoodInputs twoGoodOrder
    (by decide) (by decide) (by decide)

/-! Round-trip of the JSON serialization. -/

theorem strMk_data (s : String) : String.mk s.data = s := by
  cases s
  rfl

theorem hexVal_hexDigit : ∀ n, n < 16 → hexVal (hexDigit n) = some n := by
  decide

theorem hexVal4_hex4 (n : Nat) (h : n < 65536) :
    hexVal4 (hexDigit (n / 4096 % 16)) (hexDigit (n / 256 % 16))
      (hexDigit (n / 16 % 16)) (hexDigit (n % 16)) = some n := by
  have h1 := hexVal_hexDigit (n / 4096 % 16) (Nat.mod_lt _ (by omega))
  have h2 := hexVal_hexDigit (n / 256 % 16) (Nat.mod_lt _ (by omega))
  have h3 := hexVal_hexDigit (n / 16 % 16) (Nat.mod_lt _ (by omega))
  have h4 := hexVal_hexDigit (n % 16) (Nat.mod_lt _ (by omega))
  simp only [hexVal4, h1, h2, h3, h4]
  have : n / 4096 % 16 * 4096 + n / 256 % 16 * 256 + n / 16 % 16 * 16 + n % 16 = n := by
    omega
  rw [this]

theorem parseEsc_quote (f : Nat) (tail : List Char) :
    parseBodyF (f + 1) (escapeChar '"' ++ tail) =
      (parseBodyF f tail).map (fun p => (('"' : Char) :: p.1, p.2)) := by
  cases hp : parseBodyF f tail with
  | none => simp [escapeChar, parseBodyF, unescapeShort, hp]
  | some p => simp [escapeChar, parseBodyF, unescapeShort, hp]

theorem parseEsc_backslash (f : Nat) (tail : List Char) :
    parseBodyF (f + 1) (escapeChar '\\' ++ tail) =
      (parseBodyF f tail).map (fun p => (('\\' : Char) :: p.1, p.2)) := by
  cases hp : parseBodyF f tail with
  | none => simp [escapeChar, parseBodyF, unescapeShort, hp]
  | some p => simp [escapeChar, parseBodyF, unescapeShort, hp]

theorem parseEsc_nl (f : Nat) (tail : List Char) :
    parseBodyF (f + 1) (escapeChar '\n' ++ tail) =
      (parseBodyF f tail).map (fun p => (('\n' : Char) :: p.1, p.2)) := by
  cases hp : parseBodyF f tail with
  | none => simp [escapeChar, parseBodyF, unescapeShort, hp]
  | some p => simp [escapeChar, parseBodyF, unescapeShort, hp]

theorem parseEsc_tab (f : Nat) (tail : List Char) :
    parseBodyF (f + 1) (escapeChar '\t' ++ tail) =
      (parseBodyF f tail).map (fun p => (('\t' : Char) :: p.1, p.2)) := by
  cases hp : parseBodyF f tail with
  | none => simp [escapeChar, parseBodyF, unescapeShort, hp]
  | some p => simp [escapeChar, parseBodyF, unescapeShort, hp]

theorem parseEsc_cr (f : Nat) (tail : List Char) :
    parseBodyF (f + 1) (escapeChar '\r' ++ tail) =
      (parseBodyF f tail).map (fun p => (('\r' : Char) :: p.1, p.2)) := by
  cases hp : parseBodyF f tail with
  | none => simp [escapeChar, parseBodyF, unescapeShort, hp]
  | some p => simp [escapeChar, parseBodyF, unescapeShort, hp]

theorem parseEsc_bs (f : Nat) (tail : List Char) :
    parseBodyF (f + 1) (escapeChar '\x08' ++ tail) =
      (parseBodyF f tail).map (fun p => (('\x08' : Char) :: p.1, p.2)) := by
  cases hp : parseBodyF f tail with
  | none => simp [escapeChar, parseBodyF, unescapeShort, hp]
  | some p => simp [escapeChar, parseBodyF, unescapeShort, hp]

theorem parseEsc_ff (f : Nat) (tail : List Char) :
    parseBodyF (f + 1) (escapeChar '\x0c' ++ tail) =
      (parseBodyF f tail).map (fun p => (('\x0c' : Char) :: p.1, p.2)) := by
  cases hp : parseBodyF f tail with
  | none => simp [escapeChar, parseBodyF, unescapeShort, hp]
  | some p => simp [escapeChar, parseBodyF, unescapeShort, hp]

theorem parseEsc_ctl (c : Char) (f : Nat) (tail : List Char)
    (h1 : ¬ c = '"') (h2 : ¬ c = '\\') (h3 : ¬ c = '\n') (h4 : ¬ c = '\t')
    (h5 : ¬ c = '\r') (h6 : ¬ c = '\x08') (h7 : ¬ c = '\x0c')
    (h8 : c.toNat < 32) :
    parseBodyF (f + 1) (escapeChar c ++ tail) =
      (parseBodyF f tail).map (fun p => (c :: p.1, p.2)) := by
  have hv := hexVal4_hex4 c.toNat (by omega)
  have hs1 : ¬ (55296 ≤ c.toNat ∧ c.toNat < 56320) := by omega
  have hs2 : ¬ (56320 ≤ c.toNat ∧ c.toNat < 57344) := by omega
  simp only [escapeChar, if_neg h1, if_neg h2, if_neg h3, if_neg h4, if_neg h5,
    if_neg h6, if_neg h7, if_pos h8, hex4]
  cases hp : parseBodyF f tail with
  | none => simp [parseBodyF, hv, hs1, hs2, hp]
  | some p => simp [parseBodyF, hv, hs1, hs2, hp, Char.ofNat_toNat]

theorem parseEsc_ascii (c : Char) (f : Nat) (tail : List Char)
    (h1 : ¬ c = '"') (h2 : ¬ c = '\\') (h3 : ¬ c = '\n') (h4 : ¬ c = '\t')
    (h5 : ¬ c = '\r') (h6 : ¬ c = '\x08') (h7 : ¬ c = '\x0c')
    (h8 : ¬ c.toNat < 32) (h9 : c.toNat < 127) :
    parseBodyF (f + 1) (escapeChar c ++ tail) =
      (parseBodyF f tail).map (fun p => (c :: p.1, p.2)) := by
  simp only [escapeChar, if_neg h1, if_neg h2, if_neg h3, if_neg h4, if_neg h5,
    if_neg h6, if_neg h7, if_neg h8, if_pos h9]
  cases hp : parseBodyF f tail with
  | none => simp [parseBodyF, h1, h2, h8, hp]
  | some p => simp [parseBodyF, h1, h2, h8, hp]

theorem parseEsc_bmp (c : Char) (f : Nat) (tail : List Char)
    (h1 : ¬ c = '"') (h2 : ¬ c = '\\') (h3 : ¬ c = '\n') (h4 : ¬ c = '\t')
    (h5 : ¬ c = '\r') (h6 : ¬ c = '\x08') (h7 : ¬ c = '\x0c')
    (h8 : ¬ c.toNat < 32) (h9 : ¬ c.toNat < 127) (h10 : c.toNat < 65536) :
    parseBodyF (f + 1) (escapeChar c ++ tail) =
      (parseBodyF f tail).map (fun p => (c :: p.1, p.2)) := by
  have hvalid : Nat.isValidChar c.toNat := c.valid
  have hrange : c.toNat < 55296 ∨ 57344 ≤ c.toNat := by
    rcases hvalid with h | h
    · exact Or.inl h
    · exact Or.inr h.1
  have hv := hexVal4_hex4 c.toNat h10
  have hs1 : ¬ (55296 ≤ c.toNat ∧ c.toNat < 56320) := by omega
  have hs2 : ¬ (56320 ≤ c.toNat ∧ c.toNat < 57344) := by omega
  simp only [escapeChar, if_neg h1, if_neg h2, if_neg h3, if_neg h4, if_neg h5,
    if_neg h6, if_neg h7, if_neg h8, if_neg h9, if_pos h10, hex4]
  cases hp : parseBodyF f tail with
  | none => simp [parseBodyF, hv, hs1, hs2, hp]
  | some p => simp [parseBodyF, hv, hs1, hs2, hp, Char.ofNat_toNat]

theorem parseBodyF_surrogate (f : Nat) (a b c2 d a2 b2 c3 d2 : Char)
    (hi lo : Nat) (tail : List Char)
    (hva : hexVal4 a b c2 d = some hi) (hvb : hexVal4 a2 b2 c3 d2 = some lo)
    (hhi : 55296 ≤ hi ∧ hi < 56320) (hlo : 56320 ≤ lo ∧ lo < 57344) :
    parseBodyF (f + 1)
      ('\\' :: 'u' :: a :: b :: c2 :: d :: '\\' :: 'u' :: a2 :: b2 :: c3 :: d2 :: tail) =
      (parseBodyF f tail).map
        (fun p => (Char.ofNat (65536 + (hi - 55296) * 1024 + (lo - 56320)) :: p.1, p.2)) := by
  cases hp : parseBodyF f tail with
  | none => simp [parseBodyF, hva, hvb, hhi, hlo, hp]
  | some p => simp [parseBodyF, hva, hvb, hhi, hlo, hp]

theorem parseEsc_astral (c : Char) (f : Nat) (tail : List Char)
    (h1 : ¬ c = '"') (h2 : ¬ c = '\\') (h3 : ¬ c = '\n') (h4 : ¬ c = '\t')
    (h5 : ¬ c = '\r') (h6 : ¬ c = '\x08') (h7 : ¬ c = '\x0c')
    (h8 : ¬ c.toNat < 32) (h9 : ¬ c.toNat < 127) (h10 : ¬ c.toNat < 65536) :
    parseBodyF (f + 1) (escapeChar c ++ tail) =
      (parseBodyF f tail).map (fun p => (c :: p.1, p.2)) := by
  have hvalid : Nat.isValidChar c.toNat := c.valid
  have hub : c.toNat < 1114112 := by
    rcases hvalid with h | h
    · omega
    · exact h.2
  have hvhi := hexVal4_hex4 (55296 + (c.toNat - 65536) / 1024) (by omega)
  have hvlo := hexVal4_hex4 (56320 + (c.toNat - 65536) % 1024) (by omega)
  have hch : Char.ofNat (65536 + (55296 + (c.toNat - 65536) / 1024 - 55296) * 1024 +
      (56320 + (c.toNat - 65536) % 1024 - 56320)) = c := by
    have harg : 65536 + (55296 + (c.toNat - 65536) / 1024 - 55296) * 1024 +
        (56320 + (c.toNat - 65536) % 1024 - 56320) = c.toNat := by
      omega
    rw [harg, Char.ofNat_toNat]
  simp only [escapeChar, if_neg h1, if_neg h2, if_neg h3, if_neg h4, if_neg h5,
    if_neg h6, if_neg h7, if_neg h8, if_neg h9, if_neg h10, hex4,
    List.cons_append, List.append_assoc, List.nil_append]
  rw [parseBodyF_surrogate f _ _ _ _ _ _ _ _
    (55296 + (c.toNat - 65536) / 1024) (56320 + (c.toNat - 65536) % 1024) tail
    hvhi hvlo ⟨by omega, by omega⟩ ⟨by omega, by omega⟩]
  rw [hch]

theorem parseBodyF_escapeChar (c : Char) (f : Nat) (tail : List Char) :
    parseBodyF (f + 1) (escapeChar c ++ tail) =
      (parseBodyF f tail).map (fun p => (c :: p.1, p.2)) := by
  by_cases h1 : c = '"'
  · subst h1
    exact parseEsc_quote f tail
  by_cases h2 : c = '\\'
  · subst h2
    exact parseEsc_backslash f tail
  by_cases h3 : c = '\n'
  · subst h3
    exact parseEsc_nl f tail
  by_cases h4 : c = '\t'
  · subst h4
    exact parseEsc_tab f tail
  by_cases h5 : c = '\r'
  · subst h5
    exact parseEsc_cr f tail
  by_cases h6 : c = '\x08'
  · subst h6
    exact parseEsc_bs f tail
  by_cases h7 : c = '\x0c'
  · subst h7
    exact parseEsc_ff f tail
  by_cases h8 : c.toNat < 32
  · exact parseEsc_ctl c f tail h1 h2 h3 h4 h5 h6 h7 h8
  by_cases h9 : c.toNat < 127
  · exact parseEsc_ascii c f tail h1 h2 h3 h4 h5 h6 h7 h8 h9
  by_cases h10 : c.toNat < 65536
  · exact parseEsc_bmp c f tail h1 h2 h3 h4 h5 h6 h7 h8 h9 h10
  · exact parseEsc_astral c f tail h1 h2 h3 h4 h5 h6 h7 h8 h9 h10

theorem escapeChar_length_pos (c : Char) : 1 ≤ (escapeChar c).length := by
  unfold escapeChar
  repeat' split
  all_goals simp

theorem escapeList_length (s : List Char) : s.length ≤ (escapeList s).length := by
  induction s with
  | nil => simp [escapeList]
  | cons c cs ih =>
    have := escapeChar_length_pos c
    simp only [escapeList, List.length_cons, List.length_append]
    omega

theorem parseBodyF_escape (s : List Char) :
    ∀ f rest, s.length + 1 ≤ f →
      parseBodyF f (escapeList s ++ '"' :: rest) = some (s, rest) := by
  induction s with
  | nil =>
    intro f rest h
    cases f with
    | zero => omega
    | succ f => simp [escapeList, parseBodyF]
  | cons c cs ih =>
    intro f rest h
    cases f with
    | zero => omega
    | succ f =>
      have hshape : escapeList (c :: cs) ++ '"' :: rest =
          escapeChar c ++ (escapeList cs ++ '"' :: rest) := by
        simp [escapeList, List.append_assoc]
      rw [hshape, parseBodyF_escapeChar c f _]
      rw [ih f rest (by simp only [List.length_cons] at h; omega)]
      rfl

theorem parseJString_encodeStr (s : String) (rest : List Char) :
    parseJString (encodeStr s ++ rest) = some (s, rest) := by
  have hshape : encodeStr s ++ rest = '"' :: (escapeList s.data ++ '"' :: rest) := by
    simp [encodeStr, List.append_assoc]
  rw [hshape]
  show (if ('"' : Char) = '"' then
      (parseBodyF ((escapeList s.data ++ '"' :: rest).length + 1)
        (escapeList s.data ++ '"' :: rest)).map (fun p => (String.mk p.1, p.2))
    else none) = some (s, rest)
  rw [if_pos rfl]
  have hfuel : s.data.length + 1 ≤ (escapeList s.data ++ '"' :: rest).length + 1 := by
    have := escapeList_length s.data
    simp only [List.length_append, List.length_cons]
    omega
  rw [parseBodyF_escape s.data _ rest hfuel]
  simp [strMk_data]

theorem skipWs_colon (l : List Char) : skipWs (':' :: l) = ':' :: l := by
  simp [skipWs, isJsonWs]

theorem skipWs_comma_stop (l : List Char) : skipWs (',' :: l) = ',' :: l := by
  simp [skipWs, isJsonWs]

theorem skipWs_rbrace (l : List Char) : skipWs ('}' :: l) = '}' :: l := by
  simp [skipWs, isJsonWs]

theorem skipWs_lbrace (l : List Char) : skipWs ('{' :: l) = '{' :: l := by
  simp [skipWs, isJsonWs]

theorem skipWs_quote (l : List Char) : skipWs ('"' :: l) = '"' :: l := by
  simp [skipWs, isJsonWs]

theorem skipWs_space (l : List Char) : skipWs (' ' :: l) = skipWs l := by
  simp [skipWs, isJsonWs]

theorem skipWs_nil : skipWs [] = [] := rfl

theorem skipWs_encodeStr_append (k : String) (x : List Char) :
    skipWs (encodeStr k ++ x) = encodeStr k ++ x := by
  simp only [encodeStr, List.cons_append]
  exact skipWs_quote _

theorem parseMembers_ws (fuel : Nat) (l : List Char) (acc : List (String × String)) :
    parseMembers fuel (' ' :: l) acc = parseMembers fuel l acc := by
  cases fuel with
  | zero => rfl
  | succ g => simp only [parseMembers, skipWs_space]

theorem parseMembers_encode (m : List (String × String)) :
    ∀ fuel acc rest, m ≠ [] → m.length ≤ fuel →
      parseMembers fuel (encodeMembers m ++ '}' :: rest) acc =
        some (foldInsert acc m, rest) := by
  induction m with
  | nil =>
    intro fuel acc rest hne _
    exact absurd rfl hne
  | cons p m' ih =>
    obtain ⟨k, v⟩ := p
    intro fuel acc rest _ hf
    cases fuel with
    | zero => simp at hf
    | succ g =>
      cases m' with
      | nil =>
        have hshape : encodeMembers [(k, v)] ++ '}' :: rest =
            encodeStr k ++ (':' :: ' ' :: (encodeStr v ++ '}' :: rest)) := by
          simp [encodeMembers, encodeEntry, List.append_assoc]
        rw [hshape]
        simp only [parseMembers, skipWs_encodeStr_append, parseJString_encodeStr,
          skipWs_colon, skipWs_space, skipWs_encodeStr_append, skipWs_rbrace]
        simp [foldInsert]
      | cons q m'' =>
        have hshape : encodeMembers ((k, v) :: q :: m'') ++ '}' :: rest =
            encodeStr k ++ (':' :: ' ' :: (encodeStr v ++
              (',' :: ' ' :: (encodeMembers (q :: m'') ++ '}' :: rest)))) := by
          simp [encodeMembers, encodeEntry, List.append_assoc]
        rw [hshape]
        simp only [parseMembers, skipWs_encodeStr_append, parseJString_encodeStr,
          skipWs_colon, skipWs_space, skipWs_comma_stop]
        have hfg : (q :: m'').length ≤ g := by
          simp only [List.length_cons] at hf ⊢
          omega
        simp only [if_true]
        rw [parseMembers_ws]
        rw [ih g (dictInsert acc k v) rest (List.cons_ne_nil q m'') hfg]
        rfl

theorem encodeEntry_length_pos (k v : String) : 1 ≤ (encodeEntry k v).length := by
  simp only [encodeEntry, encodeStr, List.length_append, List.length_cons]
  omega

theorem encodeMembers_length (m : List (String × String)) :
    m.length ≤ (encodeMembers m).length := by
  induction m with
  | nil => simp [encodeMembers]
  | cons p m' ih =>
    obtain ⟨k, v⟩ := p
    cases m' with
    | nil =>
      have := encodeEntry_length_pos k v
      simp only [encodeMembers, List.length_cons, List.length_nil]
      omega
    | cons q m'' =>
      have h1 := encodeEntry_length_pos k v
      simp only [encodeMembers, List.length_cons, List.length_append] at ih ⊢
      omega

theorem foldInsert_eq_append (m : List (String × String)) :
    ∀ acc, (keysOf (acc ++ m)).Nodup → foldInsert acc m = acc ++ m := by
  induction m with
  | nil =>
    intro acc _
    simp [foldInsert]
  | cons p m' ih =>
    obtain ⟨k, v⟩ := p
    intro acc h
    have hks : (keysOf acc ++ k :: keysOf m').Nodup := by
      simpa [keysOf] using h
    have hk : k ∉ keysOf acc := by
      rcases List.nodup_append.mp hks with ⟨_, _, hdisj⟩
      intro hmem
      exact hdisj hmem (List.mem_cons_self _ _)
    have hins : dictInsert acc k v = acc ++ [(k, v)] := by
      unfold dictInsert
      rw [if_neg hk]
    have hnodup' : (keysOf ((acc ++ [(k, v)]) ++ m')).Nodup := by
      rw [List.append_assoc]
      simpa [keysOf] using h
    calc foldInsert acc ((k, v) :: m')
        = foldInsert (dictInsert acc k v) m' := rfl
      _ = foldInsert (acc ++ [(k, v)]) m' := by rw [hins]
      _ = (acc ++ [(k, v)]) ++ m' := ih _ hnodup'
      _ = acc ++ (k, v) :: m' := by simp [List.append_assoc]

theorem loads_dumps (m : List (String × String)) (h : (keysOf m).Nodup) :
    loads (dumps m) = some m := by
  cases m with
  | nil => rfl
  | cons p m' =>
    obtain ⟨k, v⟩ := p
    have hdata : (dumps ((k, v) :: m')).data =
        '{' :: (encodeMembers ((k, v) :: m') ++ [ '}' ]) := rfl
    have hhead : ∃ y, encodeMembers ((k, v) :: m') ++ [ '}' ] = '"' :: y := by
      cases m' with
      | nil =>
        refine ⟨(escapeList k.data ++ [ '"' ]) ++ ((':' :: ' ' :: encodeStr v) ++ [ '}' ]), ?_⟩
        simp [encodeMembers, encodeEntry, encodeStr, List.cons_append, List.append_assoc]
      | cons q m'' =>
        refine ⟨(escapeList k.data ++ [ '"' ]) ++ ((':' :: ' ' :: encodeStr v) ++
          ((',' :: ' ' :: encodeMembers (q :: m'')) ++ [ '}' ])), ?_⟩
        simp [encodeMembers, encodeEntry, encodeStr, List.cons_append, List.append_assoc]
    obtain ⟨y, hy⟩ := hhead
    have hsk : skipWs (encodeMembers ((k, v) :: m') ++ [ '}' ]) = '"' :: y := by
      rw [hy]
      exact skipWs_quote y
    have hlen : ((k, v) :: m').length ≤
        (encodeMembers ((k, v) :: m') ++ [ '}' ]).length + 1 := by
      have := encodeMembers_length ((k, v) :: m')
      simp only [List.length_append, List.length_cons] at this ⊢
      omega
    have hfold : foldInsert [] ((k, v) :: m') = (k, v) :: m' := by
      have := foldInsert_eq_append ((k, v) :: m') [] (by simpa using h)
      simpa using this
    have hne2 : ('"' : Char) ≠ '}' := by decide
    unfold loads
    rw [hdata, skipWs_lbrace]
    simp only [hsk, if_true, if_neg hne2,
      parseMembers_encode ((k, v) :: m') _ [] [] (List.cons_ne_nil _ _) hlen,
      skipWs_nil, hfold]

/-- C5: persisting an AttributeRecord writes it to the path derived from its
title — the fixed output directory, the title with every space replaced by
an underscore, and the fixed `.json` suffix — and reading the written bytes
back as JSON yields a string-to-string object equal key-for-key and
value-for-value to the mapping passed in. -/
theorem C5_persist_roundtrip (title : String) (m : List (String × String))
    (hnodup : (keysOf m).Nodup) :
    (SyncScript.save_product title m).path = dataDir ++ underscore title ++ jsonExt ∧
    (AsyncScript.save_product title m).path = dataDir ++ underscore title ++ jsonExt ∧
    loads (SyncScript.save_product title m).content = some m ∧
    loads (AsyncScript.save_product title m).content = some m :=
  ⟨rfl, rfl, loads_dumps m hnodup, loads_dumps m hnodup⟩

/-- Witness for C5 at a concrete title with a space and a two-entry mapping. -/
theorem C5_witness :
    (SyncScript.save_product titleText persistPairs).path =
      dataDir ++ underscore titleText ++ jsonExt ∧
    (AsyncScript.save_product titleText persistPairs).path =
      dataDir ++ underscore titleText ++ jsonExt ∧
    loads (SyncScript.save_product titleText persistPairs).content = some persistPairs ∧
    loads (AsyncScript.save_product titleText persistPairs).content = some persistPairs :=
  C5_persist_roundtrip titleText persistPairs (by decide)
